import Mathlib

/-!
Verification development for the OpenAPI inspector utility (src/inspector.py).

The program traverses a parsed JSON specification document.  Python values
reaching the functions under study are JSON trees (dictionaries preserve
insertion order), so the embedding models them with the `Json` type below;
objects are ordered association lists, exactly like Python dicts.  Printing
functions are modelled as pure functions returning the list of printed lines
(standard output, and where relevant a second list for standard error); the
blank lines that `print("\n...")` produces are not modelled, only the text of
each reported line and the order of reports.
-/

set_option maxHeartbeats 1000000

/-- A JSON value as produced by `json.load`: the dynamic value universe of the
Python program.  Objects keep their key order, as Python dicts do. -/
inductive Json where
  | null : Json
  | bool : Bool → Json
  | num : Int → Json
  | str : String → Json
  | arr : List Json → Json
  | obj : List (String × Json) → Json

/-- Entry list of a JSON object; non-objects have no entries (Python would
raise when iterating them as dicts, which the claims never exercise). -/
def asObj : Json → List (String × Json)
  | Json.obj kvs => kvs
  | _ => []

/-- Element list of a JSON array; non-arrays give the empty list. -/
def asArr : Json → List Json
  | Json.arr xs => xs
  | _ => []

/-- String content of a JSON string; other values give the empty string. -/
def asStr : Json → String
  | Json.str s => s
  | _ => ""

/-- Dictionary lookup: the value stored at key `k`, mirroring `d[k]` /
`k in d` on a Python dict. -/
def getVal {α : Type} : List (String × α) → String → Option α
  | [], _ => none
  | (k, v) :: rest, key => if k = key then some v else getVal rest key

/-- Dictionary update `d[k] = v`: replaces the value in place when the key is
present (keeping its position, as Python dicts do) and appends otherwise. -/
def setVal {α : Type} : List (String × α) → String → α → List (String × α)
  | [], key, v => [(key, v)]
  | (k, w) :: rest, key, v =>
      if k = key then (key, v) :: rest else (k, w) :: setVal rest key v

/-- Python `d.get(k, default)` on a JSON object value. -/
def objGet (j : Json) (k : String) (d : Json) : Json :=
  match j with
  | Json.obj kvs => (getVal kvs k).getD d
  | _ => d

/-- Python `str.lower()` (ASCII letters, which is all the program compares). -/
def lowerStr (s : String) : String :=
  String.mk (s.toList.map Char.toLower)

/-- Python `str.upper()`. -/
def upperStr (s : String) : String :=
  String.mk (s.toList.map Char.toUpper)

/-- Python `needle in hay` on strings: substring containment. -/
def strContains (hay needle : String) : Bool :=
  hay.toList.tails.any (fun t => needle.toList.isPrefixOf t)

/-- The HTTP method whitelist of `extract_endpoints` (inspector.py line 29). -/
def httpMethods : List String := ["get", "post", "put", "delete", "patch"]

/-- The guard `method.lower() in ['get', 'post', 'put', 'delete', 'patch']`. -/
def methodFilter (method : String) : Bool :=
  httpMethods.contains (lowerStr method)

/-- The normalized operation record built at inspector.py lines 30-38: each
field read with `operation.get(field, default)`. -/
def extractOp (operation : List (String × Json)) : Json :=
  Json.obj
    [("summary", (getVal operation "summary").getD (Json.str "")),
     ("description", (getVal operation "description").getD (Json.str "")),
     ("parameters", (getVal operation "parameters").getD (Json.arr [])),
     ("requestBody", (getVal operation "requestBody").getD (Json.obj [])),
     ("responses", (getVal operation "responses").getD (Json.obj [])),
     ("tags", (getVal operation "tags").getD (Json.arr [])),
     ("operationId", (getVal operation "operationId").getD (Json.str ""))]

/-- Inner loop of `extract_endpoints` over one path item (lines 28-38). -/
def extractMethods (pathData : List (String × Json)) : List (String × Json) :=
  pathData.foldl
    (fun acc me =>
      if methodFilter me.1 then setVal acc me.1 (extractOp (asObj me.2)) else acc)
    []

/-- The entry list of `spec.get('paths', {})`. -/
def pathsOf (spec : Json) : List (String × Json) :=
  asObj (objGet spec "paths" (Json.obj []))

/-- `extract_endpoints` (inspector.py lines 21-40): every path of `paths` gets
an entry (`endpoints[path] = {}` runs before the method filter), filled with
the whitelisted methods of its path item. -/
def extract_endpoints (spec : Json) : List (String × Json) :=
  (pathsOf spec).foldl
    (fun endpoints pe => setVal endpoints pe.1 (Json.obj (extractMethods (asObj pe.2))))
    []

/-- Python `path.strip('/')`: drop every leading and trailing slash. -/
def stripSlashes (s : String) : String :=
  String.mk (((s.toList.dropWhile (fun c => c = '/')).reverse.dropWhile
    (fun c => c = '/')).reverse)

/-- Python `str.split('/')` on a character list: interior empty segments are
kept and the empty input yields one empty segment. -/
def splitSlash : List Char → List (List Char)
  | [] => [[]]
  | c :: rest =>
      let r := splitSlash rest
      if c = '/' then [] :: r
      else
        match r with
        | s :: ss => (c :: s) :: ss
        | [] => [[c]]

/-- `path.strip('/').split('/')` from inspector.py line 46. -/
def pathParts (p : String) : List String :=
  (splitSlash (stripSlashes p).toList).map String.mk

/-- One insertion of `group_by_path` (lines 47-52): walk the segment list,
creating empty child dicts for missing segments, and store the method map
under the reserved key `_methods` at the terminal node.  Descending into a
value that is not a dict raises in Python; that is modelled as `none`. -/
def insertParts (cur : List (String × Json)) (parts : List String) (m : Json) :
    Option (List (String × Json)) :=
  match parts with
  | [] => some (setVal cur "_methods" m)
  | part :: ps =>
      match getVal cur part with
      | none => (insertParts [] ps m).map (fun c => setVal cur part (Json.obj c))
      | some (Json.obj c0) =>
          (insertParts c0 ps m).map (fun c => setVal cur part (Json.obj c))
      | some _ => none

/-- `group_by_path` (inspector.py lines 42-53). -/
def group_by_path (endpoints : List (String × Json)) :
    Option (List (String × Json)) :=
  endpoints.foldlM (fun grouped pe => insertParts grouped (pathParts pe.1) pe.2) []

/-- The record appended by `group_by_tag` (lines 70-74); `details['summary']`
is a plain indexing that raises on absence, modelled with a `null` fallback
never reached on extracted records. -/
def tagRecord (path method : String) (details : List (String × Json)) : Json :=
  Json.obj
    [("path", Json.str path),
     ("method", Json.str (upperStr method)),
     ("summary", (getVal details "summary").getD Json.null)]

/-- `defaultdict(list)` append: `grouped[tag].append(x)` creates the bucket at
the end of the dict order when absent. -/
def bucketAppend {α : Type} : List (String × List α) → String → α → List (String × List α)
  | [], tag, x => [(tag, [x])]
  | (k, xs) :: rest, tag, x =>
      if k = tag then (k, xs ++ [x]) :: rest else (k, xs) :: bucketAppend rest tag x

/-- `group_by_tag` (inspector.py lines 63-75).  Note that the default
`['untagged']` of `details.get('tags', ['untagged'])` fires only when the
`tags` key is absent altogether. -/
def group_by_tag (endpoints : List (String × Json)) : List (String × List Json) :=
  endpoints.foldl
    (fun grouped pe =>
      (asObj pe.2).foldl
        (fun g md =>
          let details := asObj md.2
          let tags := (getVal details "tags").getD (Json.arr [Json.str "untagged"])
          (asArr tags).foldl
            (fun g2 tj => bucketAppend g2 (asStr tj) (tagRecord pe.1 md.1 details))
            g)
        grouped)
    []

mutual

/-- Rendering of a JSON value to one line of text, standing in for
`json.dumps`; the exact formatting (indentation) is not modelled, only that a
deterministic text is printed. -/
def dumpJson : Json → String
  | Json.null => "null"
  | Json.bool b => if b then "true" else "false"
  | Json.num n => toString n
  | Json.str s => "\x22" ++ s ++ "\x22"
  | Json.arr xs => "[" ++ dumpArr xs ++ "]"
  | Json.obj kvs => "\x7b" ++ dumpObj kvs ++ "\x7d"

/-- Comma-separated rendering of array elements. -/
def dumpArr : List Json → String
  | [] => ""
  | [x] => dumpJson x
  | x :: rest => dumpJson x ++ ", " ++ dumpArr rest

/-- Comma-separated rendering of object entries. -/
def dumpObj : List (String × Json) → String
  | [] => ""
  | [(k, v)] => "\x22" ++ k ++ "\x22: " ++ dumpJson v
  | (k, v) :: rest => "\x22" ++ k ++ "\x22: " ++ dumpJson v ++ ", " ++ dumpObj rest

end

/-- Text a Python f-string produces for a JSON value, standing in for `str()`:
strings render bare, `None`, `True` and `False` keep Python spelling,
containers fall back to the `dumpJson` rendering. -/
def pyShow : Json → String
  | Json.null => "None"
  | Json.bool b => if b then "True" else "False"
  | Json.num n => toString n
  | Json.str s => s
  | j => dumpJson j

/-- `pyShow` lifted to an optional lookup result: Python renders a missing
`dict.get(k)` as `None`. -/
def pyShowOpt : Option Json → String
  | none => "None"
  | some j => pyShow j

/-- Python truthiness of a JSON value (`if details['tags']:` and friends). -/
def pyTruthy : Json → Bool
  | Json.null => false
  | Json.bool b => b
  | Json.num n => n != 0
  | Json.str s => s != ""
  | Json.arr xs => !xs.isEmpty
  | Json.obj kvs => !kvs.isEmpty

/-- The condition of the text loop of `search_endpoints` (lines 131-132):
whether the compiled pattern hits the summary or the description of one
method record.  The pattern is abstracted as the Boolean search function the
compiled regular expression denotes. -/
def textMatch (pat : String → Bool) (details : Json) : Bool :=
  pat (asStr ((getVal (asObj details) "summary").getD Json.null)) ||
  pat (asStr ((getVal (asObj details) "description").getD Json.null))

/-- The line `print(f"  {method.upper()}: {details['summary']}")`. -/
def methodLine (method : String) (details : Json) : String :=
  "  " ++ upperStr method ++ ": " ++
    pyShow ((getVal (asObj details) "summary").getD Json.null)

/-- The second loop of `search_endpoints` (lines 130-135): report the path and
the first method whose summary or description matches, then `break`. -/
def searchTextLoop (pat : String → Bool) (path : String) :
    List (String × Json) → List String
  | [] => []
  | md :: rest =>
      if textMatch pat md.2 then [path, methodLine md.1 md.2]
      else searchTextLoop pat path rest

/-- The body of `search_endpoints` for one endpoint (lines 123-135): the path
block runs when the pattern hits the path, and the text loop runs
unconditionally afterwards (the `continue` on line 128 is the last statement
of the inner loop and so has no effect). -/
def searchEntry (pat : String → Bool) (pe : String × Json) : List String :=
  (if pat pe.1 then
     pe.1 :: (asObj pe.2).map (fun md => methodLine md.1 md.2)
   else []) ++
  searchTextLoop pat pe.1 (asObj pe.2)

/-- `search_endpoints` (inspector.py lines 117-135) past the `re.compile`
call, with the compiled case-insensitive pattern abstracted as `pat`.  The
result is the sequence of printed report lines (the header
`Matching Endpoints:` is left out). -/
def search_endpoints (endpoints : List (String × Json)) (pat : String → Bool) :
    List String :=
  (endpoints.map (searchEntry pat)).flatten

/-- The whole of `search_endpoints` including line 120: `re.compile` either
returns a matcher or raises `re.error`.  The standard library compiler is
abstracted as the `compile` oracle; the Boolean records whether the call
completed (`false` means the exception escaped), and the line list holds
whatever was printed before that. -/
def searchCompiled (compile : String → Option (String → Bool))
    (endpoints : List (String × Json)) (pattern : String) :
    List String × Bool :=
  match compile pattern with
  | none => ([], false)
  | some pat => (search_endpoints endpoints pat, true)

/-- The parameter lines of `show_endpoint_details` (lines 164-167). -/
def paramLines (param : Json) : List String :=
  ["  " ++ pyShowOpt (getVal (asObj param) "name") ++ " (" ++
     pyShowOpt (getVal (asObj param) "in") ++ ")",
   "    Description: " ++ pyShow ((getVal (asObj param) "description").getD (Json.str "")),
   "    Required: " ++ pyShow ((getVal (asObj param) "required").getD (Json.bool false))]

/-- One response line of `show_endpoint_details` (line 176). -/
def respLine (e : String × Json) : String :=
  "  " ++ e.1 ++ ": " ++ pyShow ((getVal (asObj e.2) "description").getD (Json.str ""))

/-- The per-method block of `show_endpoint_details` (lines 154-176). -/
def detailBlock (method : String) (dJ : Json) : List String :=
  let details := asObj dJ
  let tags := (getVal details "tags").getD Json.null
  let params := (getVal details "parameters").getD Json.null
  let rb := (getVal details "requestBody").getD Json.null
  let resps := (getVal details "responses").getD Json.null
  ["Method: " ++ upperStr method,
   "Summary: " ++ pyShow ((getVal details "summary").getD Json.null),
   "Description: " ++ pyShow ((getVal details "description").getD Json.null)] ++
  (if pyTruthy tags then
     ["Tags: " ++ String.intercalate ", " ((asArr tags).map asStr)]
   else []) ++
  (if pyTruthy params then "Parameters:" :: (asArr params).flatMap paramLines
   else []) ++
  (if pyTruthy rb then ["Request Body:", dumpJson rb] else []) ++
  (if pyTruthy resps then "Responses:" :: (asObj resps).map respLine else [])

/-- `show_endpoint_details` (inspector.py lines 147-176) as the pair of
(standard output lines, standard error lines).  An absent path prints only
the not-found diagnostic to standard error and returns. -/
def show_endpoint_details (endpoints : List (String × Json)) (path : String) :
    List String × List String :=
  match getVal endpoints path with
  | none => ([], ["Endpoint " ++ path ++ " not found"])
  | some msJ =>
      (("Endpoint: " ++ path) ::
         (asObj msJ).flatMap (fun md => detailBlock md.1 md.2), [])

/-- The schema table `spec.get('components', {}).get('schemas', {})`. -/
def schemasOf (spec : Json) : List (String × Json) :=
  asObj (objGet (objGet spec "components" (Json.obj [])) "schemas" (Json.obj []))

/-- `print_schema` (inspector.py lines 106-115) as (standard output lines,
standard error lines). -/
def print_schema (spec : Json) (schemaName : String) : List String × List String :=
  match getVal (schemasOf spec) schemaName with
  | none => ([], ["Schema \x27" ++ schemaName ++ "\x27 not found"])
  | some schema => (["Schema: " ++ schemaName, dumpJson schema], [])

/-- Python `sorted` on strings (lexicographic, stable). -/
def sortedStrings (l : List String) : List String :=
  l.mergeSort (fun a b => a ≤ b)

/-- The `path` field of a tag-grouping record. -/
def recPath (r : Json) : String :=
  asStr ((getVal (asObj r) "path").getD Json.null)

/-- The `method` field of a tag-grouping record. -/
def recMethod (r : Json) : String :=
  asStr ((getVal (asObj r) "method").getD Json.null)

/-- Python `sorted(bucket, key=lambda x: x['path'])`. -/
def sortByPath (rs : List Json) : List Json :=
  rs.mergeSort (fun a b => recPath a ≤ recPath b)

/-- The match list of `show_category_details` (lines 183-184): tags whose
lowercased name contains the lowercased query as a substring. -/
def categoryMatches (endpoints : List (String × Json)) (category : String) :
    List String :=
  ((group_by_tag endpoints).map Prod.fst).filter
    (fun tag => strContains (lowerStr tag) (lowerStr category))

/-- The separator line `"=" * 80` printed before each detail dump. -/
def sepLine : String := String.mk (List.replicate 80 '=')

/-- `show_category_details` (inspector.py lines 178-213) as (standard output
lines, standard error lines). -/
def show_category_details (spec : Json) (endpoints : List (String × Json))
    (category : String) : List String × List String :=
  let grouped := group_by_tag endpoints
  let cands := categoryMatches endpoints category
  if cands.isEmpty then
    (("No category found matching \x27" ++ category ++ "\x27") ::
       "Available categories:" ::
       (sortedStrings (grouped.map Prod.fst)).map (fun tag => "- " ++ tag), [])
  else if 1 < cands.length then
    (("Multiple categories match \x27" ++ category ++ "\x27:") ::
       cands.map (fun tag => "- " ++ tag), [])
  else
    let tag := cands.headD ""
    let bucket := (getVal grouped tag).getD []
    let sortedB := sortByPath bucket
    let detailParts := sortedB.map (fun r => show_endpoint_details endpoints (recPath r))
    (("=== " ++ tag ++ " API Endpoints ===") :: "Summary:" ::
       sortedB.flatMap
         (fun r =>
           [recMethod r ++ " " ++ recPath r,
            "  " ++ pyShow ((getVal (asObj r) "summary").getD Json.null)]) ++
       "Detailed Specifications:" ::
       detailParts.flatMap (fun pr => sepLine :: pr.1),
     detailParts.flatMap (fun pr => pr.2))

/-- Re-joining of segment keys into a path string, as the losslessness claim
reads the tree back: a leading slash followed by the segments joined with
slashes. -/
def rejoin (segs : List String) : String :=
  "/" ++ String.intercalate "/" segs

/-- Walk of a path-grouping tree: the segment-qualified (segments, method)
pairs found by descending through child entries and reading the method names
stored under each reserved `_methods` entry. -/
def walkL (pref : List String) : List (String × Json) → List (List String × String)
  | [] => []
  | (k, v) :: rest =>
      (if k = "_methods" then (asObj v).map (fun md => (pref, md.1))
       else walkL (pref ++ [k]) (asObj v)) ++
      walkL pref rest
termination_by l => sizeOf l
decreasing_by
  all_goals simp_wf
  all_goals first
    | omega
    | (cases v <;> simp [asObj] <;> omega)

/-- The (path, method) pairs recoverable from a path-grouping tree by the
walk, with each segment list re-joined into a path string. -/
def recoveredPairs (t : List (String × Json)) : List (String × String) :=
  (walkL [] t).map (fun sm => (rejoin sm.1, sm.2))

/-- The (path, method) pairs of an endpoint map. -/
def endpointPairs (endpoints : List (String × Json)) : List (String × String) :=
  endpoints.flatMap (fun pe => (asObj pe.2).map (fun md => (pe.1, md.1)))

/-- The value stored under `_methods` at the node reached by following the
given segment keys from the root of a path-grouping tree. -/
def methodsAt : List (String × Json) → List String → Option Json
  | t, [] => getVal t "_methods"
  | t, k :: ks =>
      match getVal t k with
      | some (Json.obj c) => methodsAt c ks
      | _ => none

/-- Structural invariant of the trees `group_by_path` builds when no path
segment equals `_methods`: keys are distinct at every node and every entry
other than `_methods` holds a (recursively clean) object. -/
inductive Clean : List (String × Json) → Prop where
  | mk : ∀ l, (l.map Prod.fst).Nodup →
      (∀ k v, (k, v) ∈ l → k ≠ "_methods" → ∃ c, v = Json.obj c) →
      (∀ k c, (k, Json.obj c) ∈ l → k ≠ "_methods" → Clean c) →
      Clean l

/-- Document with one endpoint whose operation declares no tags. -/
def specNoTags : Json :=
  Json.obj [("paths", Json.obj
    [("/widgets", Json.obj
      [("get", Json.obj [("summary", Json.str "List widgets")])])])]

/-- Endpoint map with one endpoint whose path and summary both contain
`users`. -/
def usersEndpoints : List (String × Json) :=
  [("/users", Json.obj
    [("get", Json.obj
      [("summary", Json.str "List users"), ("description", Json.str "")])])]

/-- The search function of the compiled pattern `users` with `re.IGNORECASE`:
a case-insensitive substring test, since the pattern has no metacharacters. -/
def patUsers : String → Bool := fun s => strContains (lowerStr s) "users"

/-- Endpoint map whose two distinct path strings collapse to the same segment
list under `strip('/')` + `split('/')`. -/
def collidingEndpoints : List (String × Json) :=
  [("/users", Json.obj [("get", Json.obj [])]),
   ("users", Json.obj [("post", Json.obj [])])]

/-- Document whose single path item uses an upper-case method key. -/
def specUpperGet : Json :=
  Json.obj [("paths", Json.obj [("/x", Json.obj [("GET", Json.obj [])])])]

/-- Document with a schemas table that has a `Bar` entry but no `Foo`. -/
def specBarOnly : Json :=
  Json.obj [("components", Json.obj
    [("schemas", Json.obj [("Bar", Json.obj [])])])]

/-- Endpoint map carrying the two tags `Users` and `Usage`. -/
def twoTagEndpoints : List (String × Json) :=
  [("/u", Json.obj [("get", Json.obj
      [("summary", Json.str "S"), ("tags", Json.arr [Json.str "Users"])])]),
   ("/v", Json.obj [("get", Json.obj
      [("summary", Json.str "T"), ("tags", Json.arr [Json.str "Usage"])])])]

/-- A toy regular-expression compiler oracle used to instantiate theorems
about `search_endpoints`: it rejects the single malformed pattern `[` and
compiles everything else to a matcher that never hits. -/
def toyCompile : String → Option (String → Bool) :=
  fun p => if p = "[" then none else some (fun _ => false)

/-- A method record whose summary and description do not mention `users`. -/
def quietRecord : Json :=
  Json.obj [("summary", Json.str "x"), ("description", Json.str "")]

/-- A method record whose summary contains `users`. -/
def loudRecord : Json :=
  Json.obj [("summary", Json.str "List users"), ("description", Json.str "")]

/-- Document whose single path item holds no HTTP method at all, only a
shared `parameters` key. -/
def specNoMethodPath : Json :=
  Json.obj [("paths", Json.obj
    [("/ref", Json.obj [("parameters", Json.arr [])])])]

theorem getVal_eq_none {α : Type} {l : List (String × α)} {k : String} :
    getVal l k = none ↔ k ∉ l.map Prod.fst := by
  induction l with
  | nil => simp [getVal]
  | cons a rest ih =>
      obtain ⟨a1, a2⟩ := a
      by_cases h : a1 = k
      · subst h
        simp [getVal]
      · simp [getVal, h, ih, Ne.symm h]

theorem getVal_mem {α : Type} {l : List (String × α)} {k : String} {v : α}
    (h : getVal l k = some v) : (k, v) ∈ l := by
  induction l with
  | nil => simp [getVal] at h
  | cons a rest ih =>
      obtain ⟨a1, a2⟩ := a
      by_cases hk : a1 = k
      · subst hk
        simp [getVal] at h
        simp [h]
      · simp [getVal, hk] at h
        exact List.mem_cons_of_mem _ (ih h)

theorem getVal_of_mem_nodup {α : Type} {l : List (String × α)} {k : String} {v : α}
    (hnd : (l.map Prod.fst).Nodup) (h : (k, v) ∈ l) : getVal l k = some v := by
  induction l with
  | nil => simp at h
  | cons a rest ih =>
      obtain ⟨a1, a2⟩ := a
      rw [List.map_cons, List.nodup_cons] at hnd
      rcases List.mem_cons.mp h with h1 | h1
      · rw [Prod.mk.injEq] at h1
        obtain ⟨h2, h3⟩ := h1
        subst h2
        subst h3
        simp [getVal]
      · have hk : a1 ≠ k := by
          intro he
          subst he
          exact hnd.1 (List.mem_map.mpr ⟨(a1, v), h1, rfl⟩)
        simp only [getVal, if_neg hk]
        exact ih hnd.2 h1

theorem setVal_of_not_mem {α : Type} {l : List (String × α)} {k : String} (v : α)
    (h : k ∉ l.map Prod.fst) : setVal l k v = l ++ [(k, v)] := by
  induction l with
  | nil => simp [setVal]
  | cons a rest ih =>
      obtain ⟨a1, a2⟩ := a
      rw [List.map_cons, List.mem_cons] at h
      push_neg at h
      obtain ⟨h1, h2⟩ := h
      simp [setVal, Ne.symm h1, ih h2]

theorem getVal_setVal_self {α : Type} (l : List (String × α)) (k : String) (v : α) :
    getVal (setVal l k v) k = some v := by
  induction l with
  | nil => simp [setVal, getVal]
  | cons a rest ih =>
      obtain ⟨a1, a2⟩ := a
      by_cases h : a1 = k
      · subst h
        simp [setVal, getVal]
      · simp [setVal, getVal, h, ih]

theorem getVal_setVal_ne {α : Type} (l : List (String × α)) {k k' : String} (v : α)
    (h : k' ≠ k) : getVal (setVal l k v) k' = getVal l k' := by
  induction l with
  | nil => simp [setVal, getVal, Ne.symm h]
  | cons a rest ih =>
      obtain ⟨a1, a2⟩ := a
      by_cases ha : a1 = k
      · subst ha
        simp [setVal, getVal, Ne.symm h]
      · by_cases ha' : a1 = k'
        · subst ha'
          simp [setVal, getVal, ha]
        · simp [setVal, getVal, ha, ha', ih]

theorem keys_setVal {α : Type} (l : List (String × α)) (k : String) (v : α) :
    (setVal l k v).map Prod.fst =
      if k ∈ l.map Prod.fst then l.map Prod.fst else l.map Prod.fst ++ [k] := by
  induction l with
  | nil => simp [setVal]
  | cons a rest ih =>
      obtain ⟨a1, a2⟩ := a
      by_cases h : a1 = k
      · subst h
        simp [setVal]
      · simp only [setVal, if_neg h, List.map_cons]
        rw [ih]
        by_cases hm : k ∈ rest.map Prod.fst
        · simp [hm, Ne.symm h]
        · simp [hm, Ne.symm h]

theorem nodup_keys_setVal {α : Type} {l : List (String × α)} (k : String) (v : α)
    (h : (l.map Prod.fst).Nodup) : ((setVal l k v).map Prod.fst).Nodup := by
  rw [keys_setVal]
  by_cases hm : k ∈ l.map Prod.fst
  · simpa [hm]
  · simp only [if_neg hm]
    exact List.Nodup.append h (List.nodup_singleton k) (by simpa using hm)

theorem mem_setVal {α : Type} {l : List (String × α)} {k k' : String} {v v' : α}
    (hnd : (l.map Prod.fst).Nodup) :
    (k', v') ∈ setVal l k v ↔ (k' = k ∧ v' = v) ∨ ((k', v') ∈ l ∧ k' ≠ k) := by
  induction l with
  | nil => simp [setVal, and_comm]
  | cons a rest ih =>
      obtain ⟨a1, a2⟩ := a
      rw [List.map_cons, List.nodup_cons] at hnd
      by_cases h : a1 = k
      · subst h
        simp only [setVal, if_pos rfl]
        constructor
        · intro hm
          rcases List.mem_cons.mp hm with h1 | h1
          · rw [Prod.mk.injEq] at h1
            exact Or.inl h1
          · refine Or.inr ⟨List.mem_cons_of_mem _ h1, ?_⟩
            intro he
            subst he
            exact hnd.1 (List.mem_map.mpr ⟨(k', v'), h1, rfl⟩)
        · intro hm
          rcases hm with ⟨h1, h2⟩ | ⟨h1, h2⟩
          · subst h1
            subst h2
            exact List.mem_cons_self _ _
          · rcases List.mem_cons.mp h1 with h3 | h3
            · rw [Prod.mk.injEq] at h3
              exact absurd h3.1 h2
            · exact List.mem_cons_of_mem _ h3
      · simp only [setVal, if_neg h]
        rw [List.mem_cons, ih hnd.2]
        constructor
        · intro hm
          rcases hm with h1 | h1 | h1
          · rw [Prod.mk.injEq] at h1
            refine Or.inr ⟨List.mem_cons.mpr (Or.inl ?_), ?_⟩
            · rw [Prod.mk.injEq]
              exact h1
            · intro he
              exact h (h1.1 ▸ he)
          · exact Or.inl h1
          · exact Or.inr ⟨List.mem_cons_of_mem _ h1.1, h1.2⟩
        · intro hm
          rcases hm with h1 | ⟨h1, h2⟩
          · exact Or.inr (Or.inl h1)
          · rcases List.mem_cons.mp h1 with h3 | h3
            · exact Or.inl h3
            · exact Or.inr (Or.inr ⟨h3, h2⟩)

theorem foldl_setVal_filter {α : Type} (g : String × Json → Bool)
    (f : String × Json → α) :
    ∀ (l : List (String × Json)) (init : List (String × α)),
      (l.map Prod.fst).Nodup → (∀ e ∈ l, e.1 ∉ init.map Prod.fst) →
      l.foldl (fun acc e => if g e then setVal acc e.1 (f e) else acc) init
        = init ++ (l.filter g).map (fun e => (e.1, f e)) := by
  intro l
  induction l with
  | nil => intro init _ _; simp
  | cons a rest ih =>
      intro init hnd hdisj
      rw [List.map_cons, List.nodup_cons] at hnd
      by_cases hg : g a
      · have hfresh : a.1 ∉ init.map Prod.fst := hdisj a (List.mem_cons_self _ _)
        have hstep : setVal init a.1 (f a) = init ++ [(a.1, f a)] :=
          setVal_of_not_mem (f a) hfresh
        rw [List.foldl_cons, if_pos hg, hstep,
          ih (init ++ [(a.1, f a)]) hnd.2 (by
            intro e he
            rw [List.map_append, List.mem_append]
            push_neg
            refine ⟨hdisj e (List.mem_cons_of_mem _ he), ?_⟩
            simp only [List.map_cons, List.map_nil, List.mem_singleton]
            intro hee
            exact hnd.1 (hee ▸ List.mem_map.mpr ⟨e, he, rfl⟩)),
          List.filter_cons_of_pos hg]
        simp
      · rw [List.foldl_cons, if_neg (by simpa using hg),
          ih init hnd.2 (fun e he => hdisj e (List.mem_cons_of_mem _ he)),
          List.filter_cons_of_neg (by simpa using hg)]

theorem foldl_setVal_map {α : Type} (f : String × Json → α) :
    ∀ (l : List (String × Json)) (init : List (String × α)),
      (l.map Prod.fst).Nodup → (∀ e ∈ l, e.1 ∉ init.map Prod.fst) →
      l.foldl (fun acc e => setVal acc e.1 (f e)) init
        = init ++ l.map (fun e => (e.1, f e)) := by
  intro l
  induction l with
  | nil => intro init _ _; simp
  | cons a rest ih =>
      intro init hnd hdisj
      rw [List.map_cons, List.nodup_cons] at hnd
      have hfresh : a.1 ∉ init.map Prod.fst := hdisj a (List.mem_cons_self _ _)
      rw [List.foldl_cons, setVal_of_not_mem (f a) hfresh,
        ih (init ++ [(a.1, f a)]) hnd.2 (by
          intro e he
          rw [List.map_append, List.mem_append]
          push_neg
          refine ⟨hdisj e (List.mem_cons_of_mem _ he), ?_⟩
          simp only [List.map_cons, List.map_nil, List.mem_singleton]
          intro hee
          exact hnd.1 (hee ▸ List.mem_map.mpr ⟨e, he, rfl⟩))]
      simp

theorem extract_endpoints_eq (spec : Json)
    (hnd : ((pathsOf spec).map Prod.fst).Nodup) :
    extract_endpoints spec
      = (pathsOf spec).map (fun pe => (pe.1, Json.obj (extractMethods (asObj pe.2)))) := by
  unfold extract_endpoints
  rw [foldl_setVal_map (fun pe => Json.obj (extractMethods (asObj pe.2)))
    (pathsOf spec) [] hnd (by simp)]
  simp

theorem extractMethods_eq (pd : List (String × Json))
    (hnd : (pd.map Prod.fst).Nodup) :
    extractMethods pd
      = (pd.filter (fun me => methodFilter me.1)).map
          (fun me => (me.1, extractOp (asObj me.2))) := by
  unfold extractMethods
  rw [foldl_setVal_filter (fun me => methodFilter me.1)
    (fun me => extractOp (asObj me.2)) pd [] hnd (by simp)]
  simp

theorem mem_setVal_weak {α : Type} {l : List (String × α)} {k k' : String} {v v' : α}
    (h : (k', v') ∈ setVal l k v) : (k', v') ∈ l ∨ (k' = k ∧ v' = v) := by
  induction l with
  | nil =>
      simp [setVal] at h
      exact Or.inr h
  | cons a rest ih =>
      obtain ⟨a1, a2⟩ := a
      by_cases ha : a1 = k
      · subst ha
        simp only [setVal, if_pos rfl] at h
        rcases List.mem_cons.mp h with h1 | h1
        · rw [Prod.mk.injEq] at h1
          exact Or.inr h1
        · exact Or.inl (List.mem_cons_of_mem _ h1)
      · simp only [setVal, if_neg ha] at h
        rcases List.mem_cons.mp h with h1 | h1
        · exact Or.inl (List.mem_cons.mpr (Or.inl h1))
        · rcases ih h1 with h2 | h2
          · exact Or.inl (List.mem_cons_of_mem _ h2)
          · exact Or.inr h2

theorem mem_foldl_setVal {α : Type} (f : String × Json → α) :
    ∀ (l : List (String × Json)) (init : List (String × α)) {k : String} {v : α},
      (k, v) ∈ l.foldl (fun acc e => setVal acc e.1 (f e)) init →
      (k, v) ∈ init ∨ ∃ e, e ∈ l ∧ k = e.1 ∧ v = f e := by
  intro l
  induction l with
  | nil =>
      intro init k v h
      simp at h
      exact Or.inl h
  | cons a rest ih =>
      intro init k v h
      rw [List.foldl_cons] at h
      rcases ih (setVal init a.1 (f a)) h with h1 | ⟨e, he, hk, hv⟩
      · rcases mem_setVal_weak h1 with h2 | h2
        · exact Or.inl h2
        · exact Or.inr ⟨a, List.mem_cons_self _ _, h2.1, h2.2⟩
      · exact Or.inr ⟨e, List.mem_cons_of_mem _ he, hk, hv⟩

theorem mem_foldl_setVal_filter {α : Type} (g : String × Json → Bool)
    (f : String × Json → α) :
    ∀ (l : List (String × Json)) (init : List (String × α)) {k : String} {v : α},
      (k, v) ∈ l.foldl (fun acc e => if g e then setVal acc e.1 (f e) else acc) init →
      (k, v) ∈ init ∨ ∃ e, e ∈ l ∧ g e = true ∧ k = e.1 ∧ v = f e := by
  intro l
  induction l with
  | nil =>
      intro init k v h
      simp at h
      exact Or.inl h
  | cons a rest ih =>
      intro init k v h
      rw [List.foldl_cons] at h
      by_cases hg : g a
      · rw [if_pos hg] at h
        rcases ih (setVal init a.1 (f a)) h with h1 | ⟨e, he, hge, hk, hv⟩
        · rcases mem_setVal_weak h1 with h2 | h2
          · exact Or.inl h2
          · exact Or.inr ⟨a, List.mem_cons_self _ _, hg, h2.1, h2.2⟩
        · exact Or.inr ⟨e, List.mem_cons_of_mem _ he, hge, hk, hv⟩
      · rw [if_neg hg] at h
        rcases ih init h with h1 | ⟨e, he, hge, hk, hv⟩
        · exact Or.inl h1
        · exact Or.inr ⟨e, List.mem_cons_of_mem _ he, hge, hk, hv⟩

/-- C1: on every extracted endpoint map the record built for a method always
carries a `tags` key (defaulted to the empty list), so the `['untagged']`
fallback of `group_by_tag` never fires: an endpoint declaring no tags lands
in no bucket at all instead of in an `untagged` bucket, and the bucket total
is the plain sum of declared-tag counts.  Evaluation at the failing input: a
document whose only operation declares no tags produces an empty tag
grouping. -/
theorem groupByTag_drops_untagged_endpoint :
    group_by_tag (extract_endpoints specNoTags) = [] := by rfl

/-- C3: the text loop of `search_endpoints` runs even when the path already
matched (the `continue` on line 128 is a no-op), so an endpoint whose path
and summary both match the pattern is reported twice, not once.  Evaluation
at the failing input: path `/users`, summary `List users`, pattern `users`. -/
theorem search_reports_path_match_twice :
    search_endpoints usersEndpoints patUsers
      = ["/users", "  GET: List users", "/users", "  GET: List users"] := by rfl

/-- C2 (counterexample): with the arbitrary path strings the claim allows,
`group_by_path` is not lossless: `/users` and `users` strip to the same
segment list, the second insertion overwrites the first method map, and the
walk recovers neither the pair (/users, get) nor the original spelling
`users` of the second path. -/
theorem groupByPath_loses_colliding_path :
    group_by_path collidingEndpoints
      = some [("users", Json.obj [("_methods", Json.obj [("post", Json.obj [])])])] ∧
    recoveredPairs
        [("users", Json.obj [("_methods", Json.obj [("post", Json.obj [])])])]
      = [("/users", "post")] ∧
    ("/users", "get") ∈ endpointPairs collidingEndpoints ∧
    ("/users", "get") ∉ recoveredPairs
        [("users", Json.obj [("_methods", Json.obj [("post", Json.obj [])])])] := by
  have h2 : recoveredPairs
      [("users", Json.obj [("_methods", Json.obj [("post", Json.obj [])])])]
      = [("/users", "post")] := by
    simp [recoveredPairs, walkL, asObj, rejoin]
    rfl
  refine ⟨rfl, h2, by decide, ?_⟩
  rw [h2]
  decide

/-- C5 (counterexample): `extract_endpoints` stores the method key exactly as
written in the document (only the membership test lowercases), so a path item
with key `GET` yields the inner key `GET`, which is not a lowercase member of
the method set. -/
theorem extract_method_key_not_lowercased :
    (extract_endpoints specUpperGet).map (fun e => (e.1, (asObj e.2).map Prod.fst))
      = [("/x", ["GET"])] ∧
    "GET" ∉ httpMethods ∧ lowerStr "GET" = "get" := by
  refine ⟨rfl, by decide, by decide⟩

/-- C5 (amended): every method key in the inner maps of the extractor's
output is a key of the corresponding path item, preserved in its original
case, and its lowercase form lies in {get, post, put, delete, patch} (it
passed `methodFilter`); the key itself need not be lowercase. -/
theorem extract_method_keys_filtered (spec : Json) :
    ∀ p msJ, (p, msJ) ∈ extract_endpoints spec →
      ∀ m op, (m, op) ∈ asObj msJ →
        methodFilter m = true ∧
        ∃ pd, (p, pd) ∈ pathsOf spec ∧ m ∈ (asObj pd).map Prod.fst := by
  intro p msJ hp m op hm
  unfold extract_endpoints at hp
  rcases mem_foldl_setVal (fun pe => Json.obj (extractMethods (asObj pe.2)))
      (pathsOf spec) [] hp with h | ⟨pe, hpe, hk, hv⟩
  · simp at h
  · subst hk
    subst hv
    simp only [asObj] at hm
    unfold extractMethods at hm
    rcases mem_foldl_setVal_filter (fun me => methodFilter me.1)
        (fun me => extractOp (asObj me.2)) (asObj pe.2) [] hm with h | ⟨me, hme, hg, hk2, hv2⟩
    · simp at h
    · subst hk2
      refine ⟨hg, pe.2, ?_, List.mem_map.mpr ⟨me, hme, rfl⟩⟩
      simpa using hpe

/-- C7: looking up an absent endpoint path or an absent schema name prints
exactly one not-found diagnostic on the error stream, prints nothing on
standard output, and returns normally (both functions are total and leave
every input untouched). -/
theorem lookup_missing_key_nonfatal (spec : Json) (endpoints : List (String × Json))
    (path schemaName : String)
    (hp : getVal endpoints path = none)
    (hs : getVal (schemasOf spec) schemaName = none) :
    show_endpoint_details endpoints path
      = ([], ["Endpoint " ++ path ++ " not found"]) ∧
    print_schema spec schemaName
      = ([], ["Schema \x27" ++ schemaName ++ "\x27 not found"]) := by
  constructor
  · unfold show_endpoint_details
    rw [hp]
  · unfold print_schema
    rw [hs]

theorem lookup_missing_key_nonfatal_witness :
    getVal usersEndpoints "/nope" = none ∧
    getVal (schemasOf specBarOnly) "Foo" = none ∧
    (show_endpoint_details usersEndpoints "/nope"
        = ([], ["Endpoint /nope not found"]) ∧
     print_schema specBarOnly "Foo"
        = ([], ["Schema \x27Foo\x27 not found"])) := by
  refine ⟨rfl, rfl, ?_⟩
  exact lookup_missing_key_nonfatal specBarOnly usersEndpoints "/nope" "Foo" rfl rfl

/-- C10: `search_endpoints` compiles the pattern before touching any
endpoint, so with a pattern the compiler rejects the `re.error` exception
escapes before any endpoint is reported (no output, abnormal completion),
while a pattern that compiles makes the search total and normal. -/
theorem searchCompiled_compile_first (compile : String → Option (String → Bool))
    (endpoints : List (String × Json)) (pattern : String) :
    (compile pattern = none →
      searchCompiled compile endpoints pattern = ([], false)) ∧
    (∀ pat, compile pattern = some pat →
      searchCompiled compile endpoints pattern
        = (search_endpoints endpoints pat, true)) := by
  constructor
  · intro h
    unfold searchCompiled
    rw [h]
  · intro pat h
    unfold searchCompiled
    rw [h]

theorem searchCompiled_compile_first_witness :
    toyCompile "[" = none ∧
    searchCompiled toyCompile usersEndpoints "[" = ([], false) := by
  refine ⟨rfl, ?_⟩
  exact (searchCompiled_compile_first toyCompile usersEndpoints "[").1 rfl

/-- C4: on a well-formed document (distinct keys, path items and operations
are objects), every (path, method) pair of `paths` whose method passes the
case-insensitive whitelist appears exactly once in the extractor's output
(keys are duplicate-free and the lookup finds the normalized record), every
other key of a path item is absent from the output, and the normalized
record defaults each missing field: empty string for summary, description
and operationId, empty list for parameters and tags, empty mapping for
requestBody and responses.  No case raises: the extractor is total. -/
theorem extract_endpoints_complete (spec : Json)
    (hnd : ((pathsOf spec).map Prod.fst).Nodup)
    (hitems : ∀ e ∈ pathsOf spec, ((asObj e.2).map Prod.fst).Nodup) :
    ((extract_endpoints spec).map Prod.fst).Nodup ∧
    (∀ p pd, (p, pd) ∈ pathsOf spec →
      getVal (extract_endpoints spec) p = some (Json.obj (extractMethods (asObj pd))) ∧
      ((extractMethods (asObj pd)).map Prod.fst).Nodup ∧
      ∀ m op, (m, op) ∈ asObj pd →
        (methodFilter m = true →
          getVal (extractMethods (asObj pd)) m = some (extractOp (asObj op))) ∧
        (methodFilter m = false → getVal (extractMethods (asObj pd)) m = none)) ∧
    (∀ oe : List (String × Json),
      getVal (asObj (extractOp oe)) "summary"
          = some ((getVal oe "summary").getD (Json.str "")) ∧
      getVal (asObj (extractOp oe)) "description"
          = some ((getVal oe "description").getD (Json.str "")) ∧
      getVal (asObj (extractOp oe)) "parameters"
          = some ((getVal oe "parameters").getD (Json.arr [])) ∧
      getVal (asObj (extractOp oe)) "requestBody"
          = some ((getVal oe "requestBody").getD (Json.obj [])) ∧
      getVal (asObj (extractOp oe)) "responses"
          = some ((getVal oe "responses").getD (Json.obj [])) ∧
      getVal (asObj (extractOp oe)) "tags"
          = some ((getVal oe "tags").getD (Json.arr [])) ∧
      getVal (asObj (extractOp oe)) "operationId"
          = some ((getVal oe "operationId").getD (Json.str ""))) := by
  have hkeys : (extract_endpoints spec).map Prod.fst = (pathsOf spec).map Prod.fst := by
    rw [extract_endpoints_eq spec hnd, List.map_map]
    rfl
  refine ⟨by rw [hkeys]; exact hnd, ?_, ?_⟩
  · intro p pd hmem
    have hnd2 : ((asObj pd).map Prod.fst).Nodup := hitems (p, pd) hmem
    have hmkeys : (extractMethods (asObj pd)).map Prod.fst
        = ((asObj pd).filter (fun me => methodFilter me.1)).map Prod.fst := by
      rw [extractMethods_eq (asObj pd) hnd2, List.map_map]
      rfl
    refine ⟨?_, ?_, ?_⟩
    · rw [extract_endpoints_eq spec hnd]
      exact getVal_of_mem_nodup (by rw [List.map_map]; exact hnd)
        (List.mem_map.mpr ⟨(p, pd), hmem, rfl⟩)
    · rw [hmkeys]
      exact ((List.filter_sublist _).map Prod.fst).nodup hnd2
    · intro m op hop
      constructor
      · intro hf
        rw [extractMethods_eq (asObj pd) hnd2]
        refine getVal_of_mem_nodup ?_ ?_
        · rw [List.map_map]
          show (((asObj pd).filter (fun me => methodFilter me.1)).map Prod.fst).Nodup
          exact ((List.filter_sublist _).map Prod.fst).nodup hnd2
        · exact List.mem_map.mpr ⟨(m, op), List.mem_filter.mpr ⟨hop, hf⟩, rfl⟩
      · intro hf
        rw [getVal_eq_none, hmkeys]
        intro hmm
        rcases List.mem_map.mp hmm with ⟨e, hef, hek⟩
        have := (List.mem_filter.mp hef).2
        rw [hek] at this
        rw [hf] at this
        exact Bool.false_ne_true this
  · intro oe
    refine ⟨rfl, rfl, rfl, rfl, rfl, rfl, rfl⟩

theorem extract_endpoints_complete_witness :
    ((pathsOf specNoTags).map Prod.fst).Nodup ∧
    getVal (extract_endpoints specNoTags) "/widgets"
      = some (Json.obj (extractMethods
          (asObj (Json.obj [("get", Json.obj [("summary", Json.str "List widgets")])])))) := by
  have h := extract_endpoints_complete specNoTags (by decide)
    (by
      intro e he
      rcases List.mem_cons.mp he with h1 | h1
      · subst h1
        decide
      · simp at h1)
  refine ⟨by decide, ?_⟩
  exact (h.2.1 "/widgets"
    (Json.obj [("get", Json.obj [("summary", Json.str "List widgets")])])
    (List.mem_singleton.mpr rfl)).1

theorem searchTextLoop_append_no_match (pat : String → Bool) (path : String)
    (pre l : List (String × Json))
    (hpre : ∀ md ∈ pre, textMatch pat md.2 = false) :
    searchTextLoop pat path (pre ++ l) = searchTextLoop pat path l := by
  induction pre with
  | nil => rfl
  | cons a rest ih =>
      have ha : textMatch pat a.2 = false := hpre a (List.mem_cons_self _ _)
      rw [List.cons_append]
      show searchTextLoop pat path (a :: (rest ++ l)) = _
      rw [show searchTextLoop pat path (a :: (rest ++ l))
          = if textMatch pat a.2 then [path, methodLine a.1 a.2]
            else searchTextLoop pat path (rest ++ l) from rfl,
        if_neg (by rw [ha]; exact Bool.false_ne_true)]
      exact ih (fun md hmd => hpre md (List.mem_cons_of_mem _ hmd))

/-- C6: an endpoint whose path does not match but some method's summary or
description does is reported exactly once by `search_endpoints` — one path
line plus the line of the first matching method in encounter order — and the
methods after the first match contribute nothing (the reported lines do not
depend on them). -/
theorem search_text_first_match_only (pat : String → Bool)
    (es1 es2 : List (String × Json)) (path : String)
    (pre post : List (String × Json)) (m : String) (d : Json)
    (hpath : pat path = false)
    (hpre : ∀ md ∈ pre, textMatch pat md.2 = false)
    (hmatch : textMatch pat d = true) :
    search_endpoints (es1 ++ (path, Json.obj (pre ++ (m, d) :: post)) :: es2) pat
      = search_endpoints es1 pat ++ [path, methodLine m d] ++ search_endpoints es2 pat := by
  have hentry : searchEntry pat (path, Json.obj (pre ++ (m, d) :: post))
      = [path, methodLine m d] := by
    unfold searchEntry
    rw [if_neg (by rw [hpath]; exact Bool.false_ne_true)]
    show searchTextLoop pat path (asObj (Json.obj (pre ++ (m, d) :: post))) = _
    rw [show asObj (Json.obj (pre ++ (m, d) :: post)) = pre ++ (m, d) :: post from rfl,
      searchTextLoop_append_no_match pat path pre _ hpre]
    show (if textMatch pat d then [path, methodLine m d]
          else searchTextLoop pat path post) = _
    rw [if_pos hmatch]
  unfold search_endpoints
  rw [List.map_append, List.map_cons, List.flatten_append, List.flatten_cons, hentry]
  rw [List.append_assoc]

theorem search_text_first_match_only_witness :
    search_endpoints
        [("/nope", Json.obj [("get", quietRecord), ("post", loudRecord),
          ("put", loudRecord)])] patUsers
      = ["/nope", methodLine "post" loudRecord] := by
  have h := search_text_first_match_only patUsers [] [] "/nope"
    [("get", quietRecord)] [("put", loudRecord)] "post" loudRecord
    (by decide) (by decide) (by decide)
  simpa using h

theorem extract_method_keys_filtered_witness :
    methodFilter "GET" = true ∧
    ∃ pd, ("/x", pd) ∈ pathsOf specUpperGet ∧ "GET" ∈ (asObj pd).map Prod.fst := by
  exact (extract_method_keys_filtered specUpperGet "/x"
    (Json.obj [("GET", extractOp [])]) (List.mem_singleton.mpr rfl)
    "GET" (extractOp []) (List.mem_singleton.mpr rfl)).imp id id

/-- C8: `show_category_details` matches the query case-insensitively as a
substring of the known tag names and branches on the number of matches: no
match prints the sorted list of available tags and selects nothing, two or
more matches print only the candidate names, and a unique match prints one
summary line pair per record followed by the full per-endpoint details, both
in path-sorted order. -/
theorem show_category_details_cases (spec : Json) (endpoints : List (String × Json))
    (category : String) :
    (categoryMatches endpoints category = [] →
      show_category_details spec endpoints category
        = (("No category found matching \x27" ++ category ++ "\x27") ::
            "Available categories:" ::
            (sortedStrings ((group_by_tag endpoints).map Prod.fst)).map
              (fun tag => "- " ++ tag),
           [])) ∧
    (∀ t1 t2 ts, categoryMatches endpoints category = t1 :: t2 :: ts →
      show_category_details spec endpoints category
        = (("Multiple categories match \x27" ++ category ++ "\x27:") ::
            (t1 :: t2 :: ts).map (fun tag => "- " ++ tag), [])) ∧
    (∀ tag, categoryMatches endpoints category = [tag] →
      show_category_details spec endpoints category
        = (("=== " ++ tag ++ " API Endpoints ===") :: "Summary:" ::
            ((sortByPath ((getVal (group_by_tag endpoints) tag).getD [])).flatMap
              (fun r => [recMethod r ++ " " ++ recPath r,
                         "  " ++ pyShow ((getVal (asObj r) "summary").getD Json.null)]) ++
            "Detailed Specifications:" ::
            (sortByPath ((getVal (group_by_tag endpoints) tag).getD [])).flatMap
              (fun r => sepLine :: (show_endpoint_details endpoints (recPath r)).1)),
           (sortByPath ((getVal (group_by_tag endpoints) tag).getD [])).flatMap
              (fun r => (show_endpoint_details endpoints (recPath r)).2))) := by
  refine ⟨?_, ?_, ?_⟩
  · intro h
    simp only [show_category_details, h]
    rfl
  · intro t1 t2 ts h
    simp only [show_category_details, h]
    rw [if_neg (by simp), if_pos (by simp)]
  · intro tag h
    simp only [show_category_details, h]
    rw [if_neg (by simp), if_neg (by simp), List.flatMap_map, List.flatMap_map]
    simp only [List.headD_cons, List.cons_append]

theorem show_category_details_cases_witness :
    categoryMatches twoTagEndpoints "us" = ["Users", "Usage"] ∧
    show_category_details Json.null twoTagEndpoints "us"
      = (["Multiple categories match \x27us\x27:", "- Users", "- Usage"], []) := by
  refine ⟨rfl, ?_⟩
  have h := (show_category_details_cases Json.null twoTagEndpoints "us").2.1
    "Users" "Usage" [] rfl
  simpa using h

theorem clean_nil : Clean [] :=
  Clean.mk [] (by simp) (by simp) (by simp)

theorem clean_nodup {l : List (String × Json)} (hc : Clean l) :
    (l.map Prod.fst).Nodup := by
  cases hc with
  | mk _ hnd hobj hrec => exact hnd

theorem clean_obj {l : List (String × Json)} (hc : Clean l) {k : String} {v : Json}
    (hm : (k, v) ∈ l) (hk : k ≠ "_methods") : ∃ c, v = Json.obj c := by
  cases hc with
  | mk _ hnd hobj hrec => exact hobj k v hm hk

theorem clean_sub {l : List (String × Json)} (hc : Clean l) {k : String}
    {c : List (String × Json)} (hm : (k, Json.obj c) ∈ l) (hk : k ≠ "_methods") :
    Clean c := by
  cases hc with
  | mk _ hnd hobj hrec => exact hrec k c hm hk

theorem clean_tail {a : String × Json} {l : List (String × Json)}
    (hc : Clean (a :: l)) : Clean l := by
  cases hc with
  | mk _ hnd hobj hrec =>
      rw [List.map_cons, List.nodup_cons] at hnd
      exact Clean.mk l hnd.2
        (fun k v hm hk => hobj k v (List.mem_cons_of_mem _ hm) hk)
        (fun k c hm hk => hrec k c (List.mem_cons_of_mem _ hm) hk)

theorem clean_setVal_methods {l : List (String × Json)} (hc : Clean l) (m : Json) :
    Clean (setVal l "_methods" m) := by
  refine Clean.mk _ (nodup_keys_setVal _ _ (clean_nodup hc)) ?_ ?_
  · intro k v hm hk
    rcases (mem_setVal (clean_nodup hc)).mp hm with ⟨h1, h2⟩ | ⟨h1, h2⟩
    · exact absurd h1 hk
    · exact clean_obj hc h1 hk
  · intro k c hm hk
    rcases (mem_setVal (clean_nodup hc)).mp hm with ⟨h1, h2⟩ | ⟨h1, h2⟩
    · exact absurd h1 hk
    · exact clean_sub hc h1 hk

theorem clean_setVal_obj {l : List (String × Json)} (hc : Clean l) (k0 : String)
    {c0 : List (String × Json)} (hcc : Clean c0) :
    Clean (setVal l k0 (Json.obj c0)) := by
  refine Clean.mk _ (nodup_keys_setVal _ _ (clean_nodup hc)) ?_ ?_
  · intro k v hm hk
    rcases (mem_setVal (clean_nodup hc)).mp hm with ⟨h1, h2⟩ | ⟨h1, h2⟩
    · exact ⟨c0, h2⟩
    · exact clean_obj hc h1 hk
  · intro k c hm hk
    rcases (mem_setVal (clean_nodup hc)).mp hm with ⟨h1, h2⟩ | ⟨h1, h2⟩
    · rw [Json.obj.injEq] at h2
      subst h2
      exact hcc
    · exact clean_sub hc h1 hk

theorem methodsAt_nil (segs : List String) :
    methodsAt ([] : List (String × Json)) segs = none := by
  cases segs <;> simp [methodsAt, getVal]

theorem insert_clean {t : List (String × Json)} (hc : Clean t)
    (parts : List String) (m : Json) (hm : "_methods" ∉ parts) :
    ∃ t', insertParts t parts m = some t' ∧ Clean t' := by
  induction parts generalizing t with
  | nil =>
      exact ⟨setVal t "_methods" m, rfl, clean_setVal_methods hc m⟩
  | cons p ps ih =>
      rw [List.mem_cons] at hm
      push_neg at hm
      obtain ⟨hp, hps⟩ := hm
      cases hg : getVal t p with
      | none =>
          obtain ⟨c', hc', hcc'⟩ := ih clean_nil hps
          refine ⟨setVal t p (Json.obj c'), ?_, clean_setVal_obj hc p hcc'⟩
          simp only [insertParts, hg, hc']
          rfl
      | some v =>
          obtain ⟨c0, rfl⟩ := clean_obj hc (getVal_mem hg) (Ne.symm hp)
          obtain ⟨c', hc', hcc'⟩ := ih (clean_sub hc (getVal_mem hg) (Ne.symm hp)) hps
          refine ⟨setVal t p (Json.obj c'), ?_, clean_setVal_obj hc p hcc'⟩
          simp only [insertParts, hg, hc']
          rfl

theorem methodsAt_insert {t t' : List (String × Json)} (hc : Clean t)
    {parts : List String} (m : Json) (hm : "_methods" ∉ parts)
    (hins : insertParts t parts m = some t') :
    ∀ segs, "_methods" ∉ segs →
      methodsAt t' segs = if segs = parts then some m else methodsAt t segs := by
  induction parts generalizing t t' with
  | nil =>
      simp only [insertParts, Option.some.injEq] at hins
      subst hins
      intro segs hsegs
      cases segs with
      | nil =>
          rw [if_pos rfl]
          simp only [methodsAt]
          exact getVal_setVal_self t "_methods" m
      | cons k ks =>
          rw [List.mem_cons] at hsegs
          push_neg at hsegs
          rw [if_neg (by simp)]
          simp only [methodsAt]
          rw [getVal_setVal_ne t m (Ne.symm hsegs.1)]
  | cons p ps ih =>
      rw [List.mem_cons] at hm
      push_neg at hm
      obtain ⟨hp, hps⟩ := hm
      cases hg : getVal t p with
      | none =>
          rw [insertParts, hg] at hins
          cases hc' : insertParts [] ps m with
          | none =>
              rw [hc'] at hins
              simp at hins
          | some c' =>
              rw [hc'] at hins
              simp only [Option.map, Option.some.injEq] at hins
              subst hins
              intro segs hsegs
              cases segs with
              | nil =>
                  rw [if_neg (by simp)]
                  simp only [methodsAt]
                  rw [getVal_setVal_ne t _ hp]
              | cons k ks =>
                  rw [List.mem_cons] at hsegs
                  push_neg at hsegs
                  by_cases hkp : k = p
                  · subst hkp
                    have hih := ih clean_nil hps hc' ks hsegs.2
                    simp only [methodsAt, getVal_setVal_self]
                    rw [hih, methodsAt_nil]
                    by_cases hks : ks = ps
                    · subst hks
                      simp [hg]
                    · simp [hks, hg, methodsAt]
                  · rw [if_neg (by simp [hkp])]
                    simp only [methodsAt]
                    rw [getVal_setVal_ne t _ hkp]
      | some v =>
          obtain ⟨c0, rfl⟩ := clean_obj hc (getVal_mem hg) (Ne.symm hp)
          have hins2 : Option.map (fun c => setVal t p (Json.obj c))
              (insertParts c0 ps m) = some t' := by
            rw [insertParts, hg] at hins
            exact hins
          cases hc' : insertParts c0 ps m with
          | none =>
              rw [hc'] at hins2
              simp at hins2
          | some c' =>
              rw [hc'] at hins2
              simp only [Option.map, Option.some.injEq] at hins2
              subst hins2
              intro segs hsegs
              cases segs with
              | nil =>
                  rw [if_neg (by simp)]
                  simp only [methodsAt]
                  rw [getVal_setVal_ne t _ hp]
              | cons k ks =>
                  rw [List.mem_cons] at hsegs
                  push_neg at hsegs
                  by_cases hkp : k = p
                  · subst hkp
                    have hih := ih (clean_sub hc (getVal_mem hg) (Ne.symm hp)) hps hc' ks hsegs.2
                    simp only [methodsAt, getVal_setVal_self]
                    rw [hih]
                    by_cases hks : ks = ps
                    · subst hks
                      simp [hg]
                    · simp [hks, hg, methodsAt]
                  · rw [if_neg (by simp [hkp])]
                    simp only [methodsAt]
                    rw [getVal_setVal_ne t _ hkp]

theorem groupPath_fold (es : List (String × Json)) :
    ∀ (t0 : List (String × Json)),
      Clean t0 →
      (es.map Prod.fst).Nodup →
      (∀ p ∈ es.map Prod.fst, "_methods" ∉ pathParts p) →
      (∀ p ∈ es.map Prod.fst, ∀ q ∈ es.map Prod.fst, pathParts p = pathParts q → p = q) →
      (∀ p ∈ es.map Prod.fst, methodsAt t0 (pathParts p) = none) →
      ∃ t, List.foldlM (fun grouped pe => insertParts grouped (pathParts pe.1) pe.2) t0 es
          = some t ∧ Clean t ∧
        ∀ segs, "_methods" ∉ segs → ∀ mj,
          (methodsAt t segs = some mj ↔
            ((∃ p, (p, mj) ∈ es ∧ pathParts p = segs) ∨
             (methodsAt t0 segs = some mj ∧
              ∀ p v, (p, v) ∈ es → pathParts p ≠ segs))) := by
  induction es with
  | nil =>
      intro t0 hc _ _ _ _
      refine ⟨t0, rfl, hc, ?_⟩
      intro segs hsegs mj
      simp
  | cons e tl ih =>
      intro t0 hc hnd hm hinj hfresh
      obtain ⟨p0, m0⟩ := e
      rw [List.map_cons, List.nodup_cons] at hnd
      have hm0 : "_methods" ∉ pathParts p0 := hm p0 (by simp)
      obtain ⟨t1, hins, hc1⟩ := insert_clean hc (pathParts p0) m0 hm0
      have hstep := methodsAt_insert hc m0 hm0 hins
      obtain ⟨t, heq, hct, hiff⟩ := ih t1 hc1 hnd.2
        (fun p hp => hm p (List.mem_cons_of_mem _ hp))
        (fun p hp q hq hpq =>
          hinj p (List.mem_cons_of_mem _ hp) q (List.mem_cons_of_mem _ hq) hpq)
        (by
          intro p hp
          rw [hstep (pathParts p) (hm p (List.mem_cons_of_mem _ hp)), if_neg,
            hfresh p (List.mem_cons_of_mem _ hp)]
          intro hpq
          have hpp0 : p = p0 :=
            hinj p (List.mem_cons_of_mem _ hp) p0 (by simp) hpq
          rw [hpp0] at hp
          exact hnd.1 hp)
      refine ⟨t, ?_, hct, ?_⟩
      · rw [List.foldlM_cons, hins]
        exact heq
      · intro segs hsegs mj
        rw [hiff segs hsegs mj, hstep segs hsegs]
        by_cases hseg0 : segs = pathParts p0
        · rw [if_pos hseg0]
          constructor
          · rintro (⟨p, hp, hpp⟩ | ⟨hsome, hall⟩)
            · exact Or.inl ⟨p, List.mem_cons_of_mem _ hp, hpp⟩
            · rw [Option.some.injEq] at hsome
              exact Or.inl ⟨p0, by rw [← hsome]; exact List.mem_cons_self _ _,
                hseg0.symm⟩
          · rintro (⟨p, hp, hpp⟩ | ⟨hsome, hall⟩)
            · rcases List.mem_cons.mp hp with h1 | h1
              · rw [Prod.mk.injEq] at h1
                refine Or.inr ⟨by rw [h1.2], ?_⟩
                intro p v hpv hpseg
                have hpk : p ∈ tl.map Prod.fst := List.mem_map.mpr ⟨(p, v), hpv, rfl⟩
                have hpp0 : p = p0 :=
                  hinj p (List.mem_cons_of_mem _ hpk) p0 (by simp)
                    (by rw [hpseg, hseg0])
                rw [hpp0] at hpk
                exact hnd.1 hpk
              · exact Or.inl ⟨p, h1, hpp⟩
            · exfalso
              exact hall p0 m0 (List.mem_cons_self _ _) hseg0.symm
        · rw [if_neg hseg0]
          constructor
          · rintro (⟨p, hp, hpp⟩ | ⟨hsome, hall⟩)
            · exact Or.inl ⟨p, List.mem_cons_of_mem _ hp, hpp⟩
            · refine Or.inr ⟨hsome, ?_⟩
              intro p v hpv hpseg
              rcases List.mem_cons.mp hpv with h1 | h1
              · rw [Prod.mk.injEq] at h1
                rw [h1.1] at hpseg
                exact hseg0 hpseg.symm
              · exact hall p v h1 hpseg
          · rintro (⟨p, hp, hpp⟩ | ⟨hsome, hall⟩)
            · rcases List.mem_cons.mp hp with h1 | h1
              · exfalso
                rw [Prod.mk.injEq] at h1
                rw [h1.1] at hpp
                exact hseg0 hpp.symm
              · exact Or.inl ⟨p, h1, hpp⟩
            · exact Or.inr ⟨hsome,
                fun p v hpv => hall p v (List.mem_cons_of_mem _ hpv)⟩

theorem groupPath_spec (es : List (String × Json))
    (hnd : (es.map Prod.fst).Nodup)
    (hm : ∀ p ∈ es.map Prod.fst, "_methods" ∉ pathParts p)
    (hinj : ∀ p ∈ es.map Prod.fst, ∀ q ∈ es.map Prod.fst,
      pathParts p = pathParts q → p = q) :
    ∃ t, group_by_path es = some t ∧ Clean t ∧
      ∀ segs, "_methods" ∉ segs → ∀ mj,
        (methodsAt t segs = some mj ↔ ∃ p, (p, mj) ∈ es ∧ pathParts p = segs) := by
  obtain ⟨t, heq, hct, hiff⟩ := groupPath_fold es [] clean_nil hnd hm hinj
    (fun p _ => methodsAt_nil (pathParts p))
  refine ⟨t, heq, hct, ?_⟩
  intro segs hsegs mj
  rw [hiff segs hsegs mj]
  constructor
  · rintro (h | ⟨h1, _⟩)
    · exact h
    · rw [methodsAt_nil] at h1
      exact absurd h1 (by simp)
  · exact Or.inl

theorem walk_iff_aux : ∀ (n : Nat) (t : List (String × Json)), sizeOf t ≤ n → Clean t →
    ∀ (pref segs : List String) (meth : String),
    ((segs, meth) ∈ walkL pref t ↔
      ∃ rest, segs = pref ++ rest ∧ "_methods" ∉ rest ∧
        ∃ mj, methodsAt t rest = some mj ∧ meth ∈ (asObj mj).map Prod.fst) := by
  intro n
  induction n with
  | zero =>
      intro t ht
      exfalso
      cases t with
      | nil => simp at ht
      | cons a tl => simp at ht
  | succ n ihn =>
      intro t ht hc pref segs meth
      cases t with
      | nil =>
          simp only [walkL, List.not_mem_nil, false_iff]
          rintro ⟨rest, hr, hnm, mj, hmj, hmeth⟩
          rw [methodsAt_nil] at hmj
          exact Option.noConfusion hmj
      | cons a tl =>
          obtain ⟨k, v⟩ := a
          have hcl : Clean tl := clean_tail hc
          have hnd := clean_nodup hc
          rw [List.map_cons, List.nodup_cons] at hnd
          have htl : sizeOf tl ≤ n := by
            simp only [List.cons.sizeOf_spec] at ht
            omega
          have iht := ihn tl htl hcl pref segs meth
          by_cases hk : k = "_methods"
          · subst hk
            simp only [walkL, eq_self_iff_true, if_true]
            rw [List.mem_append]
            constructor
            · rintro (h1 | h1)
              · obtain ⟨md, hmd, hmdeq⟩ := List.mem_map.mp h1
                rw [Prod.mk.injEq] at hmdeq
                refine ⟨[], by rw [← hmdeq.1]; simp, by simp, v, ?_, ?_⟩
                · simp [methodsAt, getVal]
                · exact List.mem_map.mpr ⟨md, hmd, hmdeq.2⟩
              · obtain ⟨rest, hr, hnm, mj, hmj, hmeth⟩ := iht.mp h1
                refine ⟨rest, hr, hnm, mj, ?_, hmeth⟩
                cases rest with
                | nil =>
                    exfalso
                    simp only [methodsAt] at hmj
                    rw [getVal_eq_none.mpr hnd.1] at hmj
                    exact Option.noConfusion hmj
                | cons k2 ks =>
                    rw [List.mem_cons] at hnm
                    push_neg at hnm
                    simp only [methodsAt, getVal] at hmj ⊢
                    rw [if_neg hnm.1]
                    exact hmj
            · rintro ⟨rest, hr, hnm, mj, hmj, hmeth⟩
              cases rest with
              | nil =>
                  simp only [methodsAt, getVal, eq_self_iff_true, if_true] at hmj
                  rw [Option.some.injEq] at hmj
                  subst hmj
                  obtain ⟨md, hmd, hmd1⟩ := List.mem_map.mp hmeth
                  refine Or.inl (List.mem_map.mpr ⟨md, hmd, ?_⟩)
                  rw [Prod.mk.injEq]
                  exact ⟨by rw [hr]; simp, hmd1⟩
              | cons k2 ks =>
                  rw [List.mem_cons] at hnm
                  push_neg at hnm
                  refine Or.inr (iht.mpr ⟨k2 :: ks, hr, ?_, mj, ?_, hmeth⟩)
                  · rw [List.mem_cons]
                    push_neg
                    exact hnm
                  · simp only [methodsAt, getVal, if_neg hnm.1] at hmj
                    simp only [methodsAt]
                    exact hmj
          · obtain ⟨c, rfl⟩ := clean_obj hc (List.mem_cons_self (k, v) tl) hk
            have hcc : Clean c := clean_sub hc (List.mem_cons_self _ _) hk
            have hcsz : sizeOf c ≤ n := by
              simp only [List.cons.sizeOf_spec, Prod.mk.sizeOf_spec,
                Json.obj.sizeOf_spec] at ht
              omega
            have ihc := ihn c hcsz hcc (pref ++ [k]) segs meth
            simp only [walkL, if_neg hk, asObj]
            rw [List.mem_append]
            constructor
            · rintro (h1 | h1)
              · obtain ⟨rest2, hr2, hnm2, mj, hmj, hmeth2⟩ := ihc.mp h1
                refine ⟨k :: rest2, by rw [hr2, List.append_assoc]; rfl, ?_, mj, ?_, hmeth2⟩
                · rw [List.mem_cons]
                  push_neg
                  exact ⟨fun he => hk he.symm, hnm2⟩
                · simp only [methodsAt, getVal, eq_self_iff_true, if_true]
                  exact hmj
              · obtain ⟨rest, hr, hnm, mj, hmj, hmeth⟩ := iht.mp h1
                refine ⟨rest, hr, hnm, mj, ?_, hmeth⟩
                cases rest with
                | nil =>
                    simp only [methodsAt, getVal] at hmj ⊢
                    rw [if_neg hk]
                    exact hmj
                | cons k2 ks =>
                    by_cases hk2 : k = k2
                    · exfalso
                      subst hk2
                      simp only [methodsAt] at hmj
                      rw [getVal_eq_none.mpr hnd.1] at hmj
                      exact Option.noConfusion hmj
                    · simp only [methodsAt, getVal] at hmj ⊢
                      rw [if_neg hk2]
                      exact hmj
            · rintro ⟨rest, hr, hnm, mj, hmj, hmeth⟩
              cases rest with
              | nil =>
                  simp only [methodsAt, getVal, if_neg hk] at hmj
                  refine Or.inr (iht.mpr ⟨[], hr, by simp, mj, ?_, hmeth⟩)
                  simp only [methodsAt]
                  exact hmj
              | cons k2 ks =>
                  rw [List.mem_cons] at hnm
                  push_neg at hnm
                  by_cases hk2 : k = k2
                  · subst hk2
                    simp only [methodsAt, getVal, eq_self_iff_true, if_true] at hmj
                    exact Or.inl (ihc.mpr ⟨ks, by rw [hr, List.append_assoc]; rfl,
                      hnm.2, mj, hmj, hmeth⟩)
                  · simp only [methodsAt, getVal, if_neg hk2] at hmj
                    refine Or.inr (iht.mpr ⟨k2 :: ks, hr, ?_, mj, ?_, hmeth⟩)
                    · rw [List.mem_cons]
                      push_neg
                      exact hnm
                    · simp only [methodsAt]
                      exact hmj

theorem walk_iff (t : List (String × Json)) (hc : Clean t)
    (pref segs : List String) (meth : String) :
    (segs, meth) ∈ walkL pref t ↔
      ∃ rest, segs = pref ++ rest ∧ "_methods" ∉ rest ∧
        ∃ mj, methodsAt t rest = some mj ∧ meth ∈ (asObj mj).map Prod.fst :=
  walk_iff_aux (sizeOf t) t le_rfl hc pref segs meth

/-- C2 (amended): path grouping is lossless up to the strip-and-split
normalization: when the endpoint map's path keys are pairwise distinct, no
two of them split to the same segment list, no segment equals the reserved
key `_methods`, and every key is canonical (it equals `/` followed by its
segments joined with `/`), the insertion never raises and the set of (path,
method) pairs recovered by walking the tree equals the input set exactly.
Without these conditions pairs are lost (see the counterexample). -/
theorem groupByPath_lossless_of_canonical (es : List (String × Json))
    (hnd : (es.map Prod.fst).Nodup)
    (hm : ∀ p ∈ es.map Prod.fst, "_methods" ∉ pathParts p)
    (hinj : ∀ p ∈ es.map Prod.fst, ∀ q ∈ es.map Prod.fst,
      pathParts p = pathParts q → p = q)
    (hcanon : ∀ p ∈ es.map Prod.fst, rejoin (pathParts p) = p) :
    ∃ t, group_by_path es = some t ∧
      ∀ pm : String × String, pm ∈ recoveredPairs t ↔ pm ∈ endpointPairs es := by
  obtain ⟨t, heq, hct, hiff⟩ := groupPath_spec es hnd hm hinj
  refine ⟨t, heq, ?_⟩
  rintro ⟨q, meth⟩
  constructor
  · intro h
    obtain ⟨⟨segs, meth2⟩, hw, heq2⟩ := List.mem_map.mp h
    rw [Prod.mk.injEq] at heq2
    obtain ⟨rest, hrsegs, hnm, mj, hmj, hmeth⟩ :=
      (walk_iff t hct [] segs meth2).mp hw
    rw [List.nil_append] at hrsegs
    subst hrsegs
    obtain ⟨p, hpmem, hparts⟩ := (hiff segs hnm mj).mp hmj
    have hpk : p ∈ es.map Prod.fst := List.mem_map.mpr ⟨(p, mj), hpmem, rfl⟩
    have hq : q = p := by
      rw [← heq2.1, ← hparts]
      exact hcanon p hpk
    subst hq
    rw [endpointPairs, List.mem_flatMap]
    refine ⟨(q, mj), hpmem, ?_⟩
    obtain ⟨md, hmd, hmd1⟩ := List.mem_map.mp hmeth
    exact List.mem_map.mpr ⟨md, hmd, by rw [Prod.mk.injEq]; exact ⟨rfl, heq2.2 ▸ hmd1⟩⟩
  · intro h
    rw [endpointPairs, List.mem_flatMap] at h
    obtain ⟨⟨p, mj⟩, hpmem, hin⟩ := h
    obtain ⟨md, hmd, hmdeq⟩ := List.mem_map.mp hin
    rw [Prod.mk.injEq] at hmdeq
    have hpk : p ∈ es.map Prod.fst := List.mem_map.mpr ⟨(p, mj), hpmem, rfl⟩
    have hw : (pathParts p, meth) ∈ walkL [] t := by
      rw [walk_iff t hct [] (pathParts p) meth]
      refine ⟨pathParts p, by simp, hm p hpk, mj, ?_, ?_⟩
      · exact (hiff (pathParts p) (hm p hpk) mj).mpr ⟨p, hpmem, rfl⟩
      · exact List.mem_map.mpr ⟨md, hmd, hmdeq.2⟩
    rw [recoveredPairs]
    refine List.mem_map.mpr ⟨(pathParts p, meth), hw, ?_⟩
    rw [Prod.mk.injEq]
    exact ⟨by rw [hcanon p hpk, ← hmdeq.1], rfl⟩

theorem groupByPath_lossless_witness :
    ∃ t, group_by_path usersEndpoints = some t ∧
      ∀ pm : String × String,
        pm ∈ recoveredPairs t ↔ pm ∈ endpointPairs usersEndpoints := by
  refine groupByPath_lossless_of_canonical usersEndpoints (by decide) ?_ ?_ ?_
  · intro p hp
    simp only [usersEndpoints, List.map_cons, List.map_nil] at hp
    rw [List.mem_singleton] at hp
    subst hp
    decide
  · intro p hp q hq hpq
    simp only [usersEndpoints, List.map_cons, List.map_nil] at hp hq
    rw [List.mem_singleton] at hp hq
    rw [hp, hq]
  · intro p hp
    simp only [usersEndpoints, List.map_cons, List.map_nil] at hp
    rw [List.mem_singleton] at hp
    subst hp
    decide

theorem extractMethods_empty (pd : List (String × Json))
    (h : ∀ me ∈ pd, methodFilter me.1 = false) : extractMethods pd = [] := by
  unfold extractMethods
  induction pd with
  | nil => rfl
  | cons a rest ih =>
      rw [List.foldl_cons, if_neg (by rw [h a (List.mem_cons_self _ _)]; simp)]
      exact ih (fun me hme => h me (List.mem_cons_of_mem _ hme))

/-- C9: every key of `paths` appears as a key of the extractor's output, in
order; a path item with no whitelisted method maps to an empty method map
rather than being dropped; and (under the collision-free side conditions of
path grouping) the node its segments lead to in the path tree still carries
a `_methods` entry holding that empty map. -/
theorem extract_keeps_methodless_paths (spec : Json)
    (hnd : ((pathsOf spec).map Prod.fst).Nodup)
    (hm : ∀ p ∈ (pathsOf spec).map Prod.fst, "_methods" ∉ pathParts p)
    (hinj : ∀ p ∈ (pathsOf spec).map Prod.fst, ∀ q ∈ (pathsOf spec).map Prod.fst,
      pathParts p = pathParts q → p = q) :
    (extract_endpoints spec).map Prod.fst = (pathsOf spec).map Prod.fst ∧
    (∀ p pd, (p, pd) ∈ pathsOf spec →
      (∀ me ∈ asObj pd, methodFilter me.1 = false) →
      getVal (extract_endpoints spec) p = some (Json.obj [])) ∧
    ∃ t, group_by_path (extract_endpoints spec) = some t ∧
      ∀ p pd, (p, pd) ∈ pathsOf spec →
        (∀ me ∈ asObj pd, methodFilter me.1 = false) →
        methodsAt t (pathParts p) = some (Json.obj []) := by
  have hkeys : (extract_endpoints spec).map Prod.fst = (pathsOf spec).map Prod.fst := by
    rw [extract_endpoints_eq spec hnd, List.map_map]
    rfl
  have hlookup : ∀ p pd, (p, pd) ∈ pathsOf spec →
      (∀ me ∈ asObj pd, methodFilter me.1 = false) →
      getVal (extract_endpoints spec) p = some (Json.obj []) := by
    intro p pd hmem hnone
    rw [extract_endpoints_eq spec hnd]
    have := getVal_of_mem_nodup (l := (pathsOf spec).map
        (fun pe => (pe.1, Json.obj (extractMethods (asObj pe.2)))))
      (by rw [List.map_map]; exact hkeys ▸ (hkeys ▸ hnd))
      (List.mem_map.mpr ⟨(p, pd), hmem, rfl⟩)
    rw [extractMethods_empty (asObj pd) hnone] at this
    exact this
  refine ⟨hkeys, hlookup, ?_⟩
  obtain ⟨t, heq, hct, hiff⟩ := groupPath_spec (extract_endpoints spec)
    (by rw [hkeys]; exact hnd)
    (by rw [hkeys]; exact hm)
    (by rw [hkeys]; exact hinj)
  refine ⟨t, heq, ?_⟩
  intro p pd hmem hnone
  have hpk : p ∈ (pathsOf spec).map Prod.fst := List.mem_map.mpr ⟨(p, pd), hmem, rfl⟩
  refine (hiff (pathParts p) (hm p hpk) (Json.obj [])).mpr ⟨p, ?_, rfl⟩
  exact getVal_mem (hlookup p pd hmem hnone)

theorem extract_keeps_methodless_paths_witness :
    getVal (extract_endpoints specNoMethodPath) "/ref" = some (Json.obj []) ∧
    ∃ t, group_by_path (extract_endpoints specNoMethodPath) = some t ∧
      methodsAt t (pathParts "/ref") = some (Json.obj []) := by
  have h := extract_keeps_methodless_paths specNoMethodPath (by decide)
    (by
      intro p hp
      have hp2 : p ∈ ["/ref"] := hp
      rw [List.mem_singleton] at hp2
      subst hp2
      decide)
    (by
      intro p hp q hq hpq
      have hp2 : p ∈ ["/ref"] := hp
      have hq2 : q ∈ ["/ref"] := hq
      rw [List.mem_singleton] at hp2 hq2
      rw [hp2, hq2])
  have hmem : ("/ref", Json.obj [("parameters", Json.arr [])]) ∈ pathsOf specNoMethodPath := by
    show _ ∈ [("/ref", Json.obj [("parameters", Json.arr [])])]
    exact List.mem_singleton.mpr rfl
  have hnone : ∀ me ∈ asObj (Json.obj [("parameters", Json.arr [])]),
      methodFilter me.1 = false := by
    intro me hme
    have hme2 : me ∈ [("parameters", Json.arr [])] := hme
    rw [List.mem_singleton] at hme2
    subst hme2
    decide
  obtain ⟨t, ht, hall⟩ := h.2.2
  exact ⟨h.2.1 "/ref" (Json.obj [("parameters", Json.arr [])]) hmem hnone,
    t, ht, hall "/ref" (Json.obj [("parameters", Json.arr [])]) hmem hnone⟩
